import Mathlib

/-
Shallow embedding of the linear-genetic-programming engine (registers,
accuracy metric, program generation, truncation selection, breeding, and
the two fitness evaluators) together with theorems about its behaviour.

Modelling conventions:
* `f32` register and fitness values are modelled by `ℚ`.  Every numeric
  computation the theorems below touch (floors of products of ratios with
  small natural numbers, sums of small integers, comparisons) is exact in
  IEEE-754 single precision, so the rational model agrees with the binary
  one on all inputs used.  The one genuinely non-finite `f32` behaviour the
  code exhibits, `0.0 / 0.0 = NaN`, is modelled explicitly by `F32V`.
* Stateful Rust code is modelled by explicit state passing; `&mut self`
  methods become functions returning the updated value.
* Code that draws from the process-wide RNG is modelled by oracle
  parameters (functions supplying the drawn values); the theorems proved
  hold for every oracle, and witnesses instantiate them concretely.
* Fallible or panicking code is modelled by `Option` or, where a panic is
  unreachable under the hypotheses of every theorem, by a total function
  with a default, with the panic site recorded in a comment.
-/

namespace LGP

/-! ## Register bank — from src/src/registers.rs

`pub struct Registers(Vec<RegisterValue>)` with `RegisterValue =
OrderedFloat<f32>`. -/

/-- Register values: `OrderedFloat<f32>` modelled by `ℚ`. -/
abbrev RegisterValue : Type := ℚ

/-- `Registers(Vec<RegisterValue>)`. -/
structure Registers where
  vals : List RegisterValue
deriving DecidableEq

/-- `Registers::new(n_registers)` : `vec![OrderedFloat(0f32); n_registers]`. -/
def Registers.new (nRegisters : Nat) : Registers :=
  ⟨List.replicate nRegisters 0⟩

/-- `Registers::reset` : overwrites every entry with `0f32`. -/
def Registers.reset (r : Registers) : Registers :=
  ⟨r.vals.map (fun _ => 0)⟩

/-- `Registers::len`. -/
def Registers.len (r : Registers) : Nat :=
  r.vals.length

/-- `Registers::update(index, value)`.  (`Vec` indexing panics out of
range; `List.set` is a no-op there — no theorem below touches that case.) -/
def Registers.update (r : Registers) (index : Nat) (value : RegisterValue) : Registers :=
  ⟨r.vals.set index value⟩

/-- `Registers::get_value_at_index`; the source panics when
`index ≥ len`, the model returns the default `0` there (no theorem below
reads out of range). -/
def Registers.get_value_at_index (r : Registers) (index : Nat) : RegisterValue :=
  r.vals.getD index 0

/-- Model of `Iterator::max` / `keys().max()` over a list of values:
`none` on the empty list, otherwise the left fold of `max` over the tail
starting from the head. -/
def listMax : List ℚ → Option ℚ
  | [] => none
  | a :: as => some (as.foldl max a)

/-- `Registers::argmax(n_classes, desired_index)` from
src/src/registers.rs: builds the value → set-of-indices table over
registers `0..n_classes`, takes the maximal value, and returns
`Some(desired_index)` only when `desired_index` lies in the maximal set
and that set is a singleton; every other case (in particular every tie for
the maximum) returns `None`.  `keys().max().unwrap()` panics when
`n_classes = 0`; the model returns `none` there. -/
def Registers.argmax (r : Registers) (nClasses desiredIndex : Nat) : Option Nat :=
  let vals := (List.range nClasses).map (fun i => r.vals.getD i 0)
  match listMax vals with
  | none => none
  | some m =>
    let indices := (List.range nClasses).filter (fun i => r.vals.getD i 0 = m)
    if desiredIndex ∈ indices ∧ indices.length = 1 then some desiredIndex else none

/-! ## Accuracy metric — from src/src/metrics.rs

`pub struct Accuracy(usize, usize)` (`n_correct`, `total`) with
`observe : bool → ()` and `calculate = n_correct as f32 / total as f32`. -/

/-- Values of `calculate`: a finite `f32` quotient, `NaN` (from
`0.0 / 0.0`), or `+Inf` (from `n / 0.0`, `n > 0`), per IEEE-754. -/
inductive F32V where
  | num (q : ℚ)
  | nan
  | inf
deriving DecidableEq

/-- IEEE-754 division of two natural counts as performed on `f32`:
`0/0 = NaN`, `n/0 = +Inf` for `n > 0`, otherwise the exact quotient
(rounding of the quotient is immaterial to every theorem below, which
only compares the zero-denominator outcomes and exact quotients). -/
def f32DivNat (n d : Nat) : F32V :=
  if d = 0 then (if n = 0 then F32V.nan else F32V.inf)
  else F32V.num ((n : ℚ) / (d : ℚ))

/-- `Accuracy(n_correct, total)`. -/
structure Accuracy where
  nCorrect : Nat
  total : Nat
deriving DecidableEq

/-- `Accuracy::new(initial_correct, total_counted)`. -/
def Accuracy.new (initialCorrect totalCounted : Nat) : Accuracy :=
  ⟨initialCorrect, totalCounted⟩

/-- `Metric::observe` for `Accuracy`: adds 1 to `n_correct` on `true`,
and always adds 1 to `total`. -/
def Accuracy.observe (a : Accuracy) (value : Bool) : Accuracy :=
  ⟨a.nCorrect + (if value then 1 else 0), a.total + 1⟩

/-- `Metric::calculate` for `Accuracy`:
`OrderedFloat(n_correct as f32) / OrderedFloat(total as f32)`. -/
def Accuracy.calculate (a : Accuracy) : F32V :=
  f32DivNat a.nCorrect a.total

/-! ## Program generation — from src/src/genes/program.rs

`Program { instructions, inputs, registers, fitness }` with
`Generate::generate` and `Fitness::eval_set_fitness`.  The `inputs`
field (a shared borrow of the dataset, irrelevant to every claim below)
is omitted. -/

/-- Instructions are opaque tokens: `genes/chromosomes.rs` (defining
`Instruction`) is not among the sources, and no claim below inspects an
instruction — only how many are generated and how register state flows
around their execution. -/
structure InstructionM where
  tok : Nat
deriving DecidableEq

/-- `Instruction::generate(params)` with the RNG draw abstracted into the
oracle value `rng` (the internals of the generated instruction are never
inspected by the theorems below). -/
def InstructionM.generate (rng : Nat) : InstructionM :=
  ⟨rng⟩

/-- Model of `UniformInt::<usize>::new(lo, hi).sample(rng)` from the
`rand` crate: `Uniform::new` samples the half-open range `[lo, hi)`
(`new_inclusive` would be needed for `[lo, hi]`), and panics when
`hi ≤ lo`.  The oracle `rng` selects the sampled value; the model is
faithful to the range: as `rng` varies the result attains exactly the
values of `[lo, hi)`. -/
def sampleUniformInt (lo hi rng : Nat) : Nat :=
  lo + rng % (hi - lo)

/-- `Program` with the dataset borrow omitted: instruction sequence, own
register bank, and the memoised fitness. -/
structure ProgramG where
  instructions : List InstructionM
  registers : Registers
  fitness : Option ℚ
deriving DecidableEq

/-- `Program::generate(parameters)` from src/src/genes/program.rs:
`registers = Registers::new(InputType::N_CLASSES + 1)`;
`n_instructions = UniformInt::new(0, max_instructions).sample(..)`;
`n_instructions` freshly generated instructions; `fitness = None`.
`nFeatures` enters only the instruction-generation parameters
(`InstructionGenerateParams::new(N_CLASSES, N_FEATURES, ..)`), whose
output is opaque here; the RNG is the oracle `rng` (draw 0 is the
instruction count, draw `i + 1` the `i`-th instruction). -/
def ProgramG.generate (nClasses nFeatures maxInstructions : Nat) (rng : Nat → Nat) : ProgramG :=
  let registers := Registers.new (nClasses + 1)
  let nInstructions := sampleUniformInt 0 maxInstructions (rng 0)
  let instructions :=
    (List.range nInstructions).map (fun i => InstructionM.generate (nFeatures + rng (i + 1)))
  { instructions := instructions, registers := registers, fitness := none }

/-- `Fitness::eval_set_fitness` from src/src/genes/program.rs:
`*self.fitness.get_or_insert(self.eval_fitness())`.  Rust evaluates the
argument of `get_or_insert` before the call, so `eval_fitness` runs
unconditionally; its result is discarded when a fitness is already
cached.  The model abstracts `eval_fitness` as the parameter `f`, returns
(result, updated program, number of `eval_fitness` invocations), and the
`let computed := f p` before the match mirrors the eager argument. -/
def ProgramG.evalSetFitness (f : ProgramG → ℚ) (p : ProgramG) : ℚ × ProgramG × Nat :=
  let computed := f p
  match p.fitness with
  | some s => (s, p, 1)
  | none => (computed, { p with fitness := some computed }, 1)

/-! ## Selection — from src/src/core/algorithm.rs, `apply_selection`

The populations below are plain lists sorted ascending by fitness
(`assert_le!(population.first(), population.last())` in the source), so
the worst program sits at the head.

Modelled from the spec: `core/population.rs` is not among the sources;
§4.D gives `pop` (from the worst end), `push` (append), `capacity`
(= `population_size`), and random sampling of `k` distinct elements.
`pop` therefore removes the head of the ascending list. -/

/-- `for _ in 0..n { population.pop() }`: `n` successive pops from the
worst (head) end. -/
def popTimes {α : Type} : List α → Nat → List α
  | pop, 0 => pop
  | pop, n + 1 => popTimes pop.tail n

/-- `GeneticAlgorithm::apply_selection(population, gap)`:
`cutoff_index = ((1 - gap) * pop_len as f32).floor() as i32 as usize`,
then `cutoff_index` pops.  The asserts `0 ≤ gap ≤ 1` and sortedness are
preconditions of the caller; for `gap ∈ [0, 1]` and the population sizes
in scope the `f32` product and the `i32`/`usize` casts are exact, so the
rational floor is the faithful value. -/
def applySelection {α : Type} (pop : List α) (gap : ℚ) : List α :=
  let popLen := pop.length
  let cutoffIndex := (⌊(1 - gap) * (popLen : ℚ)⌋).toNat
  popTimes pop cutoffIndex

/-! ## Breeding — from src/src/core/algorithm.rs, `breed`

Random choices are abstracted into oracles: `cross pa pb` is the one
child of `two_point_crossover` kept by `choose`, and `mutSel pa pb` is
the mutation of the parent picked by `parents.choose`.  Which two
distinct survivors `choose_multiple(2)` samples is random and never
affects the properties proved (population length and loop termination),
so the model takes the first two. -/

/-- `population.iter().choose_multiple(&mut generator(), 2)` as consumed
by `if let [parent_a, parent_b] = ..`: two elements when the population
holds at least two, otherwise the pattern fails (`choose_multiple`
returns fewer elements than requested when the iterator is short). -/
def chooseTwo {α : Type} : List α → Option (α × α)
  | a :: b :: _ => some (a, b)
  | _ => none

/-- The crossover + mutation `while` loop of `breed`, with fuel: while
`n_crossovers_todo + n_mutations_todo > 0`, sample two parents; if the
sample yields fewer than two, the body is skipped with the state intact;
otherwise push one crossover child while `n_crossovers_todo > 0` and one
mutation child while `n_mutations_todo > 0`, decrementing the
corresponding counters.  `none` means the fuel ran out with the condition
still true — with unchanged state that is exactly divergence of the
source loop. -/
def breedLoop {α : Type} (cross mutSel : α → α → α) :
    Nat → List α → Nat → Nat → Option (List α)
  | 0, pop, nCross, nMut =>
    if nCross + nMut = 0 then some pop else none
  | fuel + 1, pop, nCross, nMut =>
    if nCross + nMut = 0 then some pop
    else
      match chooseTwo pop with
      | none => breedLoop cross mutSel fuel pop nCross nMut
      | some (pa, pb) =>
        let childA : Option α := if 0 < nCross then some (cross pa pb) else none
        let nCross1 := if 0 < nCross then nCross - 1 else nCross
        let childB : Option α := if 0 < nMut then some (mutSel pa pb) else none
        let nMut1 := if 0 < nMut then nMut - 1 else nMut
        breedLoop cross mutSel fuel (pop ++ childA.toList ++ childB.toList) nCross1 nMut1

/-- `GeneticAlgorithm::breed(population, n_mutations, n_crossovers)`:
`remaining_size = capacity - len`;
`n_mutations_todo = (n_mutations * remaining_size).floor()`;
`n_crossovers_todo = (n_crossovers * remaining_size).floor()`; run the
crossover + mutation loop; then push clones of
`choose_multiple(remaining_size)` survivors.  `remaining_size` is
decremented in lockstep with every push, so after the loop it equals
`capacity - population.len()`, which the model recomputes; the clone fill
pushes `min(remaining_size, len)` elements (`choose_multiple` returns
fewer when the iterator is short), modelled by `take` (which clones are
picked is random and length-irrelevant).  The `f32` products are exact at
every input a theorem below uses, so the rational floor is faithful. -/
def breed {α : Type} (cross mutSel : α → α → α) (cap : Nat) (nMutations nCrossovers : ℚ)
    (pop : List α) : Option (List α) :=
  let popLen := pop.length
  let remainingSize := cap - popLen
  let nMutationsTodo := (⌊nMutations * (remainingSize : ℚ)⌋).toNat
  let nCrossoversTodo := (⌊nCrossovers * (remainingSize : ℚ)⌋).toNat
  match breedLoop cross mutSel (nCrossoversTodo + nMutationsTodo) pop nCrossoversTodo nMutationsTodo with
  | none => none
  | some pop2 =>
    let remaining2 := cap - pop2.length
    some (pop2 ++ pop2.take remaining2)

/-! ## Episodic RL evaluation — from src/src/extensions/reinforcement_learning.rs

`Fitness::eval_fitness` for `Program<ReinforcementLearningParameters<T>>`.

Modelled from the spec: `core/program.rs` (defining `Program` and
`Program::exec`) is not among the sources.  The call sites here force the
contract of `exec`: each step runs `self.exec(&parameters.environment);`
discarding the result and immediately reads `self.registers`, and the
evaluator takes `&mut self` — so `exec` applies the instruction sequence
to the register bank of the program in place.  The model abstracts it as
the parameter `exec : Registers → S → Registers` threaded through the
state of the program. -/

/-- `Reward::{Continue, Terminal}`. -/
inductive RewardM where
  | Continue (v : ℚ)
  | Terminal (v : ℚ)
deriving DecidableEq

/-- `Reward::get_value` (via `StateRewardPair::get_value`). -/
def RewardM.get_value : RewardM → ℚ
  | RewardM.Continue v => v
  | RewardM.Terminal v => v

/-- `StateRewardPair::is_terminal`. -/
def RewardM.is_terminal : RewardM → Bool
  | RewardM.Continue _ => false
  | RewardM.Terminal _ => true

/-- `StateRewardPair { state, reward }`. -/
structure StateRewardPairM where
  state : List ℚ
  reward : RewardM
deriving DecidableEq

/-- The `ReinforcementLearningInput` environment as a state machine over
an explicit state type `S` (the source mutates the environment in place;
the model passes the state). -/
structure RLEnvM (S : Type) where
  init : S → S
  act : S → Nat → S × StateRewardPairM
  resetEnv : S → S
  finish : S → S

/-- `ReinforcementLearningParameters::argmax(registers)`: take the slice
`registers[0..N_ACTION_REGISTERS]`, reduce with `f32::max`, collect the
indices attaining the maximum, and pick one uniformly at random —
modelled by the oracle `pick` selecting into the tie list.  The source
unwraps and panics on an empty slice; the model returns index 0 there (no
theorem below hits that case). -/
def rlArgmax (nActionRegisters : Nat) (regs : Registers) (pick : Nat) : Nat :=
  let slice := regs.vals.take nActionRegisters
  match listMax slice with
  | none => 0
  | some m =>
    let indices := (List.range slice.length).filter (fun i => slice.getD i 0 = m)
    indices.getD (pick % indices.length) 0

/-- The inner episode loop: up to `fuel` (= `max_episode_length`) steps of
run program / pick action / act / accumulate reward, breaking on a
terminal reward.  State: program registers, environment state, episode
score.  The oracle `pick` resolves argmax ties, indexed by remaining
fuel. -/
def runSteps {S : Type} (exec : Registers → S → Registers) (env : RLEnvM S)
    (nActionRegisters : Nat) (pick : Nat → Nat) :
    Nat → Registers → S → ℚ → Registers × S × ℚ
  | 0, regs, s, score => (regs, s, score)
  | fuel + 1, regs, s, score =>
    let regs2 := exec regs s
    let action := rlArgmax nActionRegisters regs2 (pick fuel)
    let (s2, srp) := env.act s action
    let score2 := score + srp.reward.get_value
    if srp.reward.is_terminal then (regs2, s2, score2)
    else runSteps exec env nActionRegisters pick fuel regs2 s2 score2

/-- The outer run loop: for each of the remaining runs, one episode from
score `0`, then `scores.push(score)` and `environment.reset()`.  The
register bank is threaded from episode to episode — the source never
resets it. -/
def runEpisodes {S : Type} (exec : Registers → S → Registers) (env : RLEnvM S)
    (nActionRegisters : Nat) (pick : Nat → Nat) (maxEpisodeLength : Nat) :
    Nat → Registers → S → List ℚ → Registers × S × List ℚ
  | 0, regs, s, scores => (regs, s, scores)
  | n + 1, regs, s, scores =>
    let (regs2, s2, score) := runSteps exec env nActionRegisters pick maxEpisodeLength regs s 0
    runEpisodes exec env nActionRegisters pick maxEpisodeLength n regs2 (env.resetEnv s2) (scores ++ [score])

/-- The per-episode cumulative scores on their own (specification-side
restatement of the run loop used to phrase the theorems; proved equal to
the `scores` vector the evaluator collects). -/
def episodeScores {S : Type} (exec : Registers → S → Registers) (env : RLEnvM S)
    (nActionRegisters : Nat) (pick : Nat → Nat) (maxEpisodeLength : Nat) :
    Nat → Registers → S → List ℚ
  | 0, _, _ => []
  | n + 1, regs, s =>
    let (regs2, s2, score) := runSteps exec env nActionRegisters pick maxEpisodeLength regs s 0
    score :: episodeScores exec env nActionRegisters pick maxEpisodeLength n regs2 (env.resetEnv s2)

/-- `Program<ReinforcementLearningParameters<T>>` in the RL evaluator:
register bank and memoised fitness (instruction execution is the
abstracted `exec`). -/
structure ProgramRL where
  registers : Registers
  fitness : Option ℚ
deriving DecidableEq

/-- `Fitness::eval_fitness` for the episodic RL evaluator:
`environment.init()`; `n_runs` episodes of at most `max_episode_length`
steps each, pushing one cumulative score per episode and resetting the
environment (never the registers) between episodes;
`scores.sort_by(partial_cmp)` ascending; `environment.finish()`;
`median = scores.remove(n_runs / 2)` (the element at that index of the
sorted vector; `Vec::remove` panics when `n_runs = 0`, and `getD`
defaults there); `self.fitness = Some(median)`; return the median.  The
ascending sort is modelled by `insertionSort`: sorted permutations of one
multiset under a total order coincide, so the algorithm choice is
immaterial.  Returns (median, updated program, final environment
state). -/
def evalFitnessRL {S : Type} (exec : Registers → S → Registers) (env : RLEnvM S)
    (nActionRegisters nRuns maxEpisodeLength : Nat) (pick : Nat → Nat)
    (p : ProgramRL) (s0 : S) : ℚ × ProgramRL × S :=
  let s1 := env.init s0
  let (regs2, sEnd, scores) :=
    runEpisodes exec env nActionRegisters pick maxEpisodeLength nRuns p.registers s1 []
  let sorted := scores.insertionSort (· ≤ ·)
  let sFin := env.finish sEnd
  let median := sorted.getD (nRuns / 2) 0
  (median, { registers := regs2, fitness := some median }, sFin)

/-- The scores vector the evaluator sorts, as a standalone definition. -/
def rlScoresOf {S : Type} (exec : Registers → S → Registers) (env : RLEnvM S)
    (nActionRegisters : Nat) (pick : Nat → Nat) (maxEpisodeLength nRuns : Nat)
    (p : ProgramRL) (s0 : S) : List ℚ :=
  episodeScores exec env nActionRegisters pick maxEpisodeLength nRuns p.registers (env.init s0)

/-! ## Classification evaluation — from src/src/extensions/classification.rs

`Fitness::eval_fitness` for `Program<ClassificationParameters<T>>`, which
takes `&self`: for every record it clones the register bank of the
program, folds `instruction.apply` over the clone, decodes
`registers.argmax()` through the strict policy of the task, observes the
(prediction, label) pair into an accuracy accumulator, and resets only
the local clone.  Instruction application (`core/instruction.rs`, absent)
is the abstract parameter `applyInstr`.

Modelled from the spec: `core/registers.rs` and the `ValidInput` /
`measure/accuracy.rs` impls are not among the sources.  Per §4.A
`registers.argmax()` returns all indices attaining the maximum over the
class range; per §4.E the classification policy is strict — `Some(i)`
only when the tie set is exactly `{i}`; per §4.G the accumulator counts a
hit when prediction and truth are both `Some` and equal (the truth is
always `Some(label)` here). -/

/-- All indices of `regs[0..nClasses]` attaining the maximum. -/
def argmaxTies (nClasses : Nat) (regs : Registers) : List Nat :=
  let slice := regs.vals.take nClasses
  match listMax slice with
  | none => []
  | some m => (List.range slice.length).filter (fun i => slice.getD i 0 = m)

/-- The strict classification decode: `Some i` exactly when the tie list
is the singleton `[i]`. -/
def strictDecode (ties : List Nat) : Option Nat :=
  match ties with
  | [i] => some i
  | _ => none

/-- `Program<ClassificationParameters<T>>`: instruction sequence, own
register bank, memoised fitness. -/
structure ProgramC where
  instructions : List InstructionM
  registers : Registers
  fitness : Option ℚ
deriving DecidableEq

/-- One record of the classification evaluator, from the cloned register
bank `regs0`: fold `instruction.apply` over the instructions, then decode
the argmax ties strictly.  (The trailing `registers.reset()` of the
source acts on the local clone, which is dropped.) -/
def classifyRecord {Inp : Type} (applyInstr : InstructionM → Registers → Inp → Registers)
    (nClasses : Nat) (instructions : List InstructionM) (regs0 : Registers)
    (input : Inp) : Option Nat :=
  let regs := instructions.foldl (fun r ins => applyInstr ins r input) regs0
  strictDecode (argmaxTies nClasses regs)

/-- `Fitness::eval_fitness` for classification: fold over the records
threading the accuracy accumulator, each record starting from a fresh
clone of the register bank of the program; return
(`fitness.calculate()`, the program — untouched, the receiver is
`&self`). -/
def evalFitnessClassif {Inp : Type} (applyInstr : InstructionM → Registers → Inp → Registers)
    (nClasses : Nat) (getClass : Inp → Nat) (p : ProgramC) (inputs : List Inp) :
    F32V × ProgramC :=
  let acc := inputs.foldl
    (fun (a : Accuracy) input =>
      let predicted := classifyRecord applyInstr nClasses p.instructions p.registers input
      a.observe (predicted = some (getClass input) : Bool))
    (Accuracy.new 0 0)
  (acc.calculate, p)

/-! ## Concrete instances used to instantiate the theorems -/

/-- Scripted environment for the five-run median scenario: run `k`
(environment state `k`, advanced by `reset`) terminates on its first step
with reward `k + 1`, so the per-episode scores are `1, 2, 3, 4, 5`. -/
def s6Env : RLEnvM ℚ where
  init := id
  act := fun s _ => (s, ⟨[], RewardM.Terminal (s + 1)⟩)
  resetEnv := fun s => s + 1
  finish := id

/-- A one-register program with no cached fitness for the scripted
environment. -/
def s6Program : ProgramRL :=
  { registers := ⟨[0]⟩, fitness := none }

/-- A program execution step that adds `1` to every register — a
concrete `exec` whose effect makes register carry-over observable. -/
def addOneReg : Registers → Registers :=
  fun r => ⟨r.vals.map (fun q => q + 1)⟩

/-- An environment that never terminates an episode and never touches
its (trivial) state: every episode runs for the full
`max_episode_length`. -/
def driftEnv : RLEnvM Unit where
  init := id
  act := fun s _ => (s, ⟨[], RewardM.Continue 0⟩)
  resetEnv := id
  finish := id

/-! ## Supporting lemmas -/

/-- A left fold of `max` is one of the folded elements and bounds them
all. -/
theorem foldl_max_spec : ∀ (as : List ℚ) (a : ℚ),
    (as.foldl max a = a ∨ as.foldl max a ∈ as) ∧ a ≤ as.foldl max a ∧
      ∀ x ∈ as, x ≤ as.foldl max a := by
  intro as
  induction as with
  | nil => intro a; simp
  | cons b bs ih =>
    intro a
    have h := ih (max a b)
    simp only [List.foldl_cons]
    refine ⟨?_, ?_, ?_⟩
    · rcases h.1 with h1 | h1
      · rcases max_choice a b with hm | hm
        · left; rw [h1, hm]
        · right; rw [h1, hm]; exact List.mem_cons_self _ _
      · right; exact List.mem_cons_of_mem _ h1
    · exact le_trans (le_max_left a b) h.2.1
    · intro x hx
      rcases List.mem_cons.mp hx with rfl | hx
      · exact le_trans (le_max_right a _) h.2.1
      · exact h.2.2 x hx

/-- `listMax` returns a member that bounds every element. -/
theorem listMax_spec (l : List ℚ) (m : ℚ) (h : listMax l = some m) :
    m ∈ l ∧ ∀ x ∈ l, x ≤ m := by
  cases l with
  | nil => simp [listMax] at h
  | cons a as =>
    simp only [listMax, Option.some.injEq] at h
    subst h
    have h := foldl_max_spec as a
    constructor
    · rcases h.1 with h1 | h1
      · rw [h1]; exact List.mem_cons_self _ _
      · exact List.mem_cons_of_mem _ h1
    · intro x hx
      rcases List.mem_cons.mp hx with rfl | hx
      · exact h.2.1
      · exact h.2.2 x hx

/-- `listMax` is `some` on any nonempty list. -/
theorem listMax_isSome (a : ℚ) (as : List ℚ) : ∃ m, listMax (a :: as) = some m :=
  ⟨as.foldl max a, rfl⟩

/-- A duplicate-free list whose members all equal `a` and which contains
`a` is exactly `[a]`. -/
theorem eq_singleton_of_mem_forall {l : List Nat} {a : Nat} (hn : l.Nodup)
    (ha : a ∈ l) (hall : ∀ x ∈ l, x = a) : l = [a] := by
  cases l with
  | nil => simp at ha
  | cons b t =>
    have hb : b = a := hall b (List.mem_cons_self _ _)
    subst hb
    cases t with
    | nil => rfl
    | cons c u =>
      have hc : c = b := hall c (by simp)
      have hnin : b ∉ c :: u := (List.nodup_cons.mp hn).1
      simp [hc] at hnin

/-- A two-element sample fails exactly on populations shorter than two. -/
theorem chooseTwo_eq_none {α : Type} (pop : List α) (h : pop.length < 2) :
    chooseTwo pop = none := by
  match pop with
  | [] => rfl
  | [a] => rfl
  | a :: b :: t => simp [List.length_cons] at h; omega

/-- With both counters zero the breeding loop exits at once. -/
theorem breedLoop_zero_todo {α : Type} (cross mutSel : α → α → α) (fuel : Nat)
    (pop : List α) : breedLoop cross mutSel fuel pop 0 0 = some pop := by
  cases fuel <;> simp [breedLoop]

/-- A failed parent sample leaves the loop state untouched. -/
theorem breedLoop_skip {α : Type} (cross mutSel : α → α → α) (fuel : Nat)
    (pop : List α) (nCross nMut : Nat) (h0 : ¬ nCross + nMut = 0)
    (hnone : chooseTwo pop = none) :
    breedLoop cross mutSel (fuel + 1) pop nCross nMut =
      breedLoop cross mutSel fuel pop nCross nMut := by
  rw [breedLoop, if_neg h0, hnone]

/-- One iteration of the breeding loop on a population with at least two
programs. -/
theorem breedLoop_cons_cons {α : Type} (cross mutSel : α → α → α) (fuel : Nat)
    (a b : α) (t : List α) (nCross nMut : Nat) (h0 : ¬ nCross + nMut = 0) :
    breedLoop cross mutSel (fuel + 1) (a :: b :: t) nCross nMut =
      breedLoop cross mutSel fuel
        ((a :: b :: t) ++ (if 0 < nCross then [cross a b] else []) ++
          (if 0 < nMut then [mutSel a b] else []))
        (if 0 < nCross then nCross - 1 else nCross)
        (if 0 < nMut then nMut - 1 else nMut) := by
  rw [breedLoop, if_neg h0]
  show (match chooseTwo (a :: b :: t) with
    | none => breedLoop cross mutSel fuel (a :: b :: t) nCross nMut
    | some (pa, pb) =>
      breedLoop cross mutSel fuel
        ((a :: b :: t) ++ (if 0 < nCross then some (cross pa pb) else none).toList ++
          (if 0 < nMut then some (mutSel pa pb) else none).toList)
        (if 0 < nCross then nCross - 1 else nCross)
        (if 0 < nMut then nMut - 1 else nMut)) = _
  by_cases hc : 0 < nCross <;> by_cases hm : 0 < nMut <;>
    simp [chooseTwo, hc, hm]

/-- With at least two survivors the loop terminates within
`nCross + nMut` iterations and pushes exactly `nCross + nMut`
children. -/
theorem breedLoop_some_spec {α : Type} (cross mutSel : α → α → α) :
    ∀ (fuel nCross nMut : Nat) (pop : List α), nCross + nMut ≤ fuel →
      2 ≤ pop.length →
      ∃ l, breedLoop cross mutSel fuel pop nCross nMut = some l ∧
        l.length = pop.length + nCross + nMut := by
  intro fuel
  induction fuel with
  | zero =>
    intro nCross nMut pop hle h2
    have hc : nCross = 0 := by omega
    have hm : nMut = 0 := by omega
    subst hc; subst hm
    exact ⟨pop, breedLoop_zero_todo cross mutSel 0 pop, by omega⟩
  | succ fuel ih =>
    intro nCross nMut pop hle h2
    by_cases h0 : nCross + nMut = 0
    · have hc : nCross = 0 := by omega
      have hm : nMut = 0 := by omega
      subst hc; subst hm
      exact ⟨pop, breedLoop_zero_todo cross mutSel (fuel + 1) pop, by omega⟩
    · obtain ⟨a, b, t, rfl⟩ : ∃ a b t, pop = a :: b :: t := by
        cases pop with
        | nil => simp at h2
        | cons a rest =>
          cases rest with
          | nil => simp at h2
          | cons b t => exact ⟨a, b, t, rfl⟩
      rw [breedLoop_cons_cons cross mutSel fuel a b t nCross nMut h0]
      rcases Nat.eq_zero_or_pos nCross with hc | hc
      · rcases Nat.eq_zero_or_pos nMut with hm | hm
        · omega
        · subst hc
          simp only [lt_irrefl, if_false, if_pos hm, if_neg]
          obtain ⟨l, hl, hlen⟩ := ih 0 (nMut - 1) ((a :: b :: t) ++ [] ++ [mutSel a b])
            (by omega) (by simp)
          refine ⟨l, hl, ?_⟩
          simp only [List.length_append, List.length_cons, List.length_nil] at hlen ⊢
          omega
      · rcases Nat.eq_zero_or_pos nMut with hm | hm
        · subst hm
          simp only [lt_irrefl, if_false, if_pos hc, if_neg]
          obtain ⟨l, hl, hlen⟩ := ih (nCross - 1) 0 ((a :: b :: t) ++ [cross a b] ++ [])
            (by omega) (by simp)
          refine ⟨l, hl, ?_⟩
          simp only [List.length_append, List.length_cons, List.length_nil] at hlen ⊢
          omega
        · simp only [if_pos hc, if_pos hm]
          obtain ⟨l, hl, hlen⟩ :=
            ih (nCross - 1) (nMut - 1) ((a :: b :: t) ++ [cross a b] ++ [mutSel a b])
              (by omega) (by simp)
          refine ⟨l, hl, ?_⟩
          simp only [List.length_append, List.length_cons, List.length_nil] at hlen ⊢
          omega

/-- With fewer than two survivors and work left the loop never makes
progress: it returns `none` for every amount of fuel. -/
theorem breedLoop_none_spec {α : Type} (cross mutSel : α → α → α) :
    ∀ (fuel nCross nMut : Nat) (pop : List α), pop.length < 2 →
      0 < nCross + nMut → breedLoop cross mutSel fuel pop nCross nMut = none := by
  intro fuel
  induction fuel with
  | zero =>
    intro nCross nMut pop hlen hpos
    have h0 : ¬ nCross + nMut = 0 := by omega
    simp [breedLoop, h0]
  | succ fuel ih =>
    intro nCross nMut pop hlen hpos
    have h0 : ¬ nCross + nMut = 0 := by omega
    rw [breedLoop_skip cross mutSel fuel pop nCross nMut h0 (chooseTwo_eq_none pop hlen)]
    exact ih nCross nMut pop hlen hpos

/-- Unfolding `breed` when the crossover + mutation loop terminates. -/
theorem breed_eq_of_loop {α : Type} (cross mutSel : α → α → α) (cap : Nat)
    (nMutations nCrossovers : ℚ) (pop l2 : List α)
    (h : breedLoop cross mutSel
        ((⌊nCrossovers * ((cap - pop.length : Nat) : ℚ)⌋).toNat +
          (⌊nMutations * ((cap - pop.length : Nat) : ℚ)⌋).toNat) pop
        ((⌊nCrossovers * ((cap - pop.length : Nat) : ℚ)⌋).toNat)
        ((⌊nMutations * ((cap - pop.length : Nat) : ℚ)⌋).toNat) = some l2) :
    breed cross mutSel cap nMutations nCrossovers pop =
      some (l2 ++ l2.take (cap - l2.length)) := by
  simp only [breed]
  rw [h]

/-- Unfolding `breed` when the crossover + mutation loop diverges. -/
theorem breed_eq_none_of_loop {α : Type} (cross mutSel : α → α → α) (cap : Nat)
    (nMutations nCrossovers : ℚ) (pop : List α)
    (h : breedLoop cross mutSel
        ((⌊nCrossovers * ((cap - pop.length : Nat) : ℚ)⌋).toNat +
          (⌊nMutations * ((cap - pop.length : Nat) : ℚ)⌋).toNat) pop
        ((⌊nCrossovers * ((cap - pop.length : Nat) : ℚ)⌋).toNat)
        ((⌊nMutations * ((cap - pop.length : Nat) : ℚ)⌋).toNat) = none) :
    breed cross mutSel cap nMutations nCrossovers pop = none := by
  simp only [breed]
  rw [h]

/-- Folding `observe` counts the `true` observations and the stream
length. -/
theorem foldl_observe_count {Inp : Type} (f : Inp → Bool) :
    ∀ (l : List Inp) (a : Accuracy),
      l.foldl (fun acc i => acc.observe (f i)) a =
        ⟨a.nCorrect + (l.filter f).length, a.total + l.length⟩ := by
  intro l
  induction l with
  | nil => intro a; simp
  | cons b bs ih =>
    intro a
    rw [List.foldl_cons, ih]
    by_cases hb : f b <;>
      simp [Accuracy.observe, hb, List.filter_cons] <;> omega

/-- The scores vector collected by the run loop is the per-episode score
list. -/
theorem runEpisodes_scores {S : Type} (exec : Registers → S → Registers)
    (env : RLEnvM S) (nActionRegisters : Nat) (pick : Nat → Nat)
    (maxEpisodeLength : Nat) :
    ∀ (n : Nat) (regs : Registers) (s : S) (scores : List ℚ),
      (runEpisodes exec env nActionRegisters pick maxEpisodeLength n regs s scores).2.2 =
        scores ++ episodeScores exec env nActionRegisters pick maxEpisodeLength n regs s := by
  intro n
  induction n with
  | zero => intro regs s scores; simp [runEpisodes, episodeScores]
  | succ n ih =>
    intro regs s scores
    rw [runEpisodes, episodeScores]
    rcases hstep : runSteps exec env nActionRegisters pick maxEpisodeLength regs s 0 with
      ⟨regs2, s2, score⟩
    simp only [ih]
    simp

/-- One score is collected per episode. -/
theorem episodeScores_length {S : Type} (exec : Registers → S → Registers)
    (env : RLEnvM S) (nActionRegisters : Nat) (pick : Nat → Nat)
    (maxEpisodeLength : Nat) :
    ∀ (n : Nat) (regs : Registers) (s : S),
      (episodeScores exec env nActionRegisters pick maxEpisodeLength n regs s).length = n := by
  intro n
  induction n with
  | zero => intro regs s; simp [episodeScores]
  | succ n ih =>
    intro regs s
    rw [episodeScores]
    rcases hstep : runSteps exec env nActionRegisters pick maxEpisodeLength regs s 0 with
      ⟨regs2, s2, score⟩
    simp [ih]

/-- In the never-terminating environment, a full episode applies the
`addOneReg` step once per unit of fuel. -/
theorem runSteps_drift (nActionRegisters : Nat) (pick : Nat → Nat) :
    ∀ (fuel : Nat) (regs : Registers) (s : Unit) (score : ℚ),
      (runSteps (fun r _ => addOneReg r) driftEnv nActionRegisters pick fuel regs s score).1 =
        addOneReg^[fuel] regs := by
  intro fuel
  induction fuel with
  | zero => intro regs s score; simp [runSteps]
  | succ fuel ih =>
    intro regs s score
    have hstep : runSteps (fun r _ => addOneReg r) driftEnv nActionRegisters pick
        (fuel + 1) regs s score =
        runSteps (fun r _ => addOneReg r) driftEnv nActionRegisters pick fuel
          (addOneReg regs) s (score + 0) := rfl
    rw [hstep, ih]
    exact (Function.iterate_succ_apply addOneReg fuel regs).symm

/-- Across the run loop the register bank is threaded with no reset:
`n` episodes of `k` forced steps compound to `n * k` applications. -/
theorem runEpisodes_drift (nActionRegisters : Nat) (pick : Nat → Nat)
    (maxEpisodeLength : Nat) :
    ∀ (n : Nat) (regs : Registers) (s : Unit) (scores : List ℚ),
      (runEpisodes (fun r _ => addOneReg r) driftEnv nActionRegisters pick
          maxEpisodeLength n regs s scores).1 =
        addOneReg^[n * maxEpisodeLength] regs := by
  intro n
  induction n with
  | zero => intro regs s scores; simp [runEpisodes]
  | succ n ih =>
    intro regs s scores
    rw [runEpisodes]
    rcases hstep : runSteps (fun r _ => addOneReg r) driftEnv nActionRegisters pick
        maxEpisodeLength regs s 0 with ⟨regs2, s2, score⟩
    have hregs2 : regs2 = addOneReg^[maxEpisodeLength] regs := by
      have := runSteps_drift nActionRegisters pick maxEpisodeLength regs s 0
      rw [hstep] at this
      exact this
    simp only [ih, hregs2]
    rw [← Function.iterate_add_apply]
    congr 1
    ring

/-! ## Claim theorems -/

/-- C1: on a sorted 10-program population with `gap = 0`,
`apply_selection` pops `⌊(1 - gap) · len⌋ = 10` programs from the worst
end and leaves 0, while the claimed post-state is
`⌊(1 - gap) · population_size⌋ = 10` survivors: the code pops
`cutoff_index` programs instead of popping down to `cutoff_index`. -/
theorem c1_selection_pops_complement :
    applySelection [(0 : ℚ), 1, 2, 3, 4, 5, 6, 7, 8, 9] 0 = ([] : List ℚ) ∧
      [(0 : ℚ), 1, 2, 3, 4, 5, 6, 7, 8, 9].length = 10 ∧
      (⌊(1 - (0 : ℚ)) * ((10 : Nat) : ℚ)⌋).toNat = 10 := by
  have hfl : (⌊(1 - (0 : ℚ)) * ((10 : Nat) : ℚ)⌋).toNat = 10 := by
    norm_num
    rfl
  refine ⟨?_, rfl, hfl⟩
  show popTimes [(0 : ℚ), 1, 2, 3, 4, 5, 6, 7, 8, 9]
    (⌊(1 - (0 : ℚ)) * (([(0 : ℚ), 1, 2, 3, 4, 5, 6, 7, 8, 9].length : Nat) : ℚ)⌋).toNat = []
  rw [show (([(0 : ℚ), 1, 2, 3, 4, 5, 6, 7, 8, 9].length : Nat) : ℚ) = ((10 : Nat) : ℚ) from rfl,
    hfl]
  rfl

/-- C2 (counterexample): a post-selection population of 1 program with
capacity 3 and `n_mutations = n_crossovers = 0` breeds to 2 programs,
not to capacity: the clone fill samples survivors without replacement
and cannot push more clones than there are survivors. -/
theorem c2_breed_shortfall :
    breed (fun (a : ℚ) _ => a) (fun a _ => a) 3 0 0 [0] = some [0, 0] ∧
      [(0 : ℚ), 0].length = 2 ∧ (2 : Nat) ≠ 3 := by
  have hfl : (⌊(0 : ℚ) * ((3 - [(0 : ℚ)].length : Nat) : ℚ)⌋).toNat = 0 := by norm_num
  have hloop : breedLoop (fun (a : ℚ) _ => a) (fun a _ => a)
      ((⌊(0 : ℚ) * ((3 - [(0 : ℚ)].length : Nat) : ℚ)⌋).toNat +
        (⌊(0 : ℚ) * ((3 - [(0 : ℚ)].length : Nat) : ℚ)⌋).toNat) [0]
      ((⌊(0 : ℚ) * ((3 - [(0 : ℚ)].length : Nat) : ℚ)⌋).toNat)
      ((⌊(0 : ℚ) * ((3 - [(0 : ℚ)].length : Nat) : ℚ)⌋).toNat) = some [0] := by
    rw [hfl]
    exact breedLoop_zero_todo (fun (a : ℚ) _ => a) (fun a _ => a) 0 [0]
  have hb := breed_eq_of_loop (fun (a : ℚ) _ => a) (fun a _ => a) 3 0 0 [0] [0] hloop
  refine ⟨?_, rfl, by decide⟩
  rw [hb]
  rfl

/-- C2 (amended): for a post-selection population holding at least two
programs, with `n_mutations, n_crossovers ≥ 0` and their sum at most 1,
`breed` terminates and the resulting length is
`min capacity (2 · (len + n_cross_todo + n_mut_todo))`; in particular it
equals `capacity` whenever `capacity ≤ 2 · len`. -/
theorem c2_breed_refill {α : Type} (cross mutSel : α → α → α) (pop : List α) (cap : Nat)
    (nMutations nCrossovers : ℚ) (hlen : pop.length ≤ cap) (h2 : 2 ≤ pop.length)
    (hm : 0 ≤ nMutations) (hc : 0 ≤ nCrossovers) (hsum : nMutations + nCrossovers ≤ 1) :
    ∃ l, breed cross mutSel cap nMutations nCrossovers pop = some l ∧
      l.length = min cap (2 * (pop.length +
        (⌊nCrossovers * ((cap - pop.length : Nat) : ℚ)⌋).toNat +
        (⌊nMutations * ((cap - pop.length : Nat) : ℚ)⌋).toNat)) ∧
      (cap ≤ 2 * pop.length → l.length = cap) := by
  have hr : (0 : ℚ) ≤ ((cap - pop.length : Nat) : ℚ) := Nat.cast_nonneg _
  have hfc : (0 : ℤ) ≤ ⌊nCrossovers * ((cap - pop.length : Nat) : ℚ)⌋ :=
    Int.floor_nonneg.mpr (mul_nonneg hc hr)
  have hfm : (0 : ℤ) ≤ ⌊nMutations * ((cap - pop.length : Nat) : ℚ)⌋ :=
    Int.floor_nonneg.mpr (mul_nonneg hm hr)
  have hsumle : ⌊nCrossovers * ((cap - pop.length : Nat) : ℚ)⌋ +
      ⌊nMutations * ((cap - pop.length : Nat) : ℚ)⌋ ≤ ((cap - pop.length : Nat) : ℤ) := by
    have h1 : ((⌊nCrossovers * ((cap - pop.length : Nat) : ℚ)⌋ +
        ⌊nMutations * ((cap - pop.length : Nat) : ℚ)⌋ : ℤ) : ℚ) ≤
        nCrossovers * ((cap - pop.length : Nat) : ℚ) +
          nMutations * ((cap - pop.length : Nat) : ℚ) := by
      push_cast
      exact add_le_add (Int.floor_le _) (Int.floor_le _)
    have h2q : nCrossovers * ((cap - pop.length : Nat) : ℚ) +
        nMutations * ((cap - pop.length : Nat) : ℚ) ≤ ((cap - pop.length : Nat) : ℚ) := by
      calc nCrossovers * ((cap - pop.length : Nat) : ℚ) +
            nMutations * ((cap - pop.length : Nat) : ℚ)
          = (nMutations + nCrossovers) * ((cap - pop.length : Nat) : ℚ) := by ring
        _ ≤ 1 * ((cap - pop.length : Nat) : ℚ) := mul_le_mul_of_nonneg_right hsum hr
        _ = ((cap - pop.length : Nat) : ℚ) := one_mul _
    exact_mod_cast le_trans h1 h2q
  have hCM : (⌊nCrossovers * ((cap - pop.length : Nat) : ℚ)⌋).toNat +
      (⌊nMutations * ((cap - pop.length : Nat) : ℚ)⌋).toNat ≤ cap - pop.length := by
    omega
  obtain ⟨l2, hl2, hlen2⟩ := breedLoop_some_spec cross mutSel
    ((⌊nCrossovers * ((cap - pop.length : Nat) : ℚ)⌋).toNat +
      (⌊nMutations * ((cap - pop.length : Nat) : ℚ)⌋).toNat)
    ((⌊nCrossovers * ((cap - pop.length : Nat) : ℚ)⌋).toNat)
    ((⌊nMutations * ((cap - pop.length : Nat) : ℚ)⌋).toNat)
    pop le_rfl h2
  refine ⟨l2 ++ l2.take (cap - l2.length),
    breed_eq_of_loop cross mutSel cap nMutations nCrossovers pop l2 hl2, ?_, ?_⟩
  · rw [List.length_append, List.length_take]
    omega
  · intro hcap
    rw [List.length_append, List.length_take]
    omega

/-- C3 (amended): every generated program owns a zero-initialised
register bank of length `N_CLASSES + 1` — not
`n_classes + n_features`. -/
theorem c3_register_bank (nClasses nFeatures maxInstructions : Nat) (rng : Nat → Nat) :
    (ProgramG.generate nClasses nFeatures maxInstructions rng).registers.vals.length =
      nClasses + 1 ∧
    ∀ q ∈ (ProgramG.generate nClasses nFeatures maxInstructions rng).registers.vals,
      q = 0 := by
  constructor
  · simp [ProgramG.generate, Registers.new]
  · intro q hq
    simp only [ProgramG.generate, Registers.new] at hq
    exact List.eq_of_mem_replicate hq

/-- C3 (counterexample): with the Iris adapter constants
(`N_CLASSES = 3`, `N_FEATURES = 4`) the generated register bank has 4
registers, not `3 + 4 = 7`. -/
theorem c3_iris_counterexample :
    (ProgramG.generate 3 4 10 (fun _ => 0)).registers.vals.length = 4 ∧
      (4 : Nat) ≠ 3 + 4 := by
  exact ⟨rfl, by decide⟩

/-- C5 (amended): `generate` draws the instruction count from the
half-open range `[0, max_instructions)` — every value below
`max_instructions` is attainable and `max_instructions` itself never
is — generates exactly that many instructions, and clears the cached
fitness. -/
theorem c5_uniform_range (nClasses nFeatures maxInstructions : Nat) (rng : Nat → Nat)
    (h : 0 < maxInstructions) :
    (ProgramG.generate nClasses nFeatures maxInstructions rng).instructions.length =
      sampleUniformInt 0 maxInstructions (rng 0) ∧
    sampleUniformInt 0 maxInstructions (rng 0) < maxInstructions ∧
    (∀ k, k < maxInstructions → ∃ r : Nat → Nat,
      (ProgramG.generate nClasses nFeatures maxInstructions r).instructions.length = k) ∧
    (ProgramG.generate nClasses nFeatures maxInstructions rng).fitness = none := by
  refine ⟨?_, ?_, ?_, rfl⟩
  · simp [ProgramG.generate]
  · simp only [sampleUniformInt, Nat.sub_zero, Nat.zero_add]
    exact Nat.mod_lt _ h
  · intro k hk
    refine ⟨fun _ => k, ?_⟩
    simp [ProgramG.generate, sampleUniformInt, Nat.mod_eq_of_lt hk]

/-- C5 (counterexample): with `max_instructions = 2` no RNG state yields
a program with 2 instructions — `UniformInt::new(0, max)` samples the
half-open range, so the inclusive upper endpoint of the claim is never
drawn. -/
theorem c5_no_max_draw :
    ¬ ∃ rng : Nat → Nat, (ProgramG.generate 3 4 2 rng).instructions.length = 2 := by
  rintro ⟨rng, h⟩
  simp [ProgramG.generate, sampleUniformInt] at h
  have hlt : rng 0 % 2 < 2 := Nat.mod_lt _ (by decide)
  omega

/-- C6: on a program whose fitness is cached as `Some 7`,
`eval_set_fitness` returns the cached 7 and keeps the cache — but still
invokes `eval_fitness` once (third component), because Rust evaluates
the argument of `get_or_insert` unconditionally; the freshly computed
score (42 here) is discarded.  The claimed no-op behaviour fails in the
invocation count while holding in the returned value and state. -/
theorem c6_eager_memoisation :
    ProgramG.evalSetFitness (fun _ => 42) ⟨[], Registers.new 0, some 7⟩ =
      (7, ⟨[], Registers.new 0, some 7⟩, 1) := rfl

/-- C8 (amended): over any observation stream starting from the empty
accumulator, `calculate` reports the exact quotient
`hits / observations`; with zero observations the `f32` division
`0.0 / 0.0` yields `NaN`, not `0`. -/
theorem c8_accuracy_quotient (obs : List Bool) :
    Accuracy.calculate (obs.foldl Accuracy.observe (Accuracy.new 0 0)) =
      if obs.length = 0 then F32V.nan
      else F32V.num (((obs.filter (fun b => b)).length : ℚ) / (obs.length : ℚ)) := by
  have hfold : obs.foldl Accuracy.observe (Accuracy.new 0 0) =
      ⟨0 + (obs.filter (fun b => b)).length, 0 + obs.length⟩ := by
    have := foldl_observe_count (fun b : Bool => b) obs (Accuracy.new 0 0)
    simpa [Accuracy.new] using this
  rw [hfold]
  cases obs with
  | nil => simp [Accuracy.calculate, f32DivNat]
  | cons b bs =>
    simp only [Accuracy.calculate, f32DivNat, Nat.zero_add, List.length_cons]
    rw [if_neg (by simp), if_neg (by simp)]

/-- C8 (counterexample): the zero-observation accumulator calculates to
`NaN`, which is not the claimed defined value `0`. -/
theorem c8_zero_observations_nan :
    Accuracy.calculate (Accuracy.new 0 0) = F32V.nan ∧ F32V.nan ≠ F32V.num 0 := by
  exact ⟨rfl, by decide⟩

/-- C9: the crossover + mutation loop of `breed` terminates (within
`n_cross_todo + n_mut_todo` iterations, having pushed exactly that many
children) on every population holding at least 2 programs; on a
population holding fewer than 2 with positive work the two-parent sample
yields fewer than two parents (`chooseTwo = none`), the body never
pushes a child or decrements a counter, and the loop never terminates
(no amount of fuel returns a result). -/
theorem c9_breed_loop_termination {α : Type} (cross mutSel : α → α → α)
    (pop : List α) (nCross nMut : Nat) :
    (2 ≤ pop.length →
      ∃ l, breedLoop cross mutSel (nCross + nMut) pop nCross nMut = some l ∧
        l.length = pop.length + nCross + nMut) ∧
    (pop.length < 2 → 0 < nCross + nMut →
      chooseTwo pop = none ∧
        ∀ fuel, breedLoop cross mutSel fuel pop nCross nMut = none) := by
  constructor
  · intro h2
    exact breedLoop_some_spec cross mutSel (nCross + nMut) nCross nMut pop le_rfl h2
  · intro hlen hpos
    exact ⟨chooseTwo_eq_none pop hlen,
      fun fuel => breedLoop_none_spec cross mutSel fuel nCross nMut pop hlen hpos⟩

/-- C4 (amended): `Registers::argmax(n_classes, desired_index)` returns
`Some(desired_index)` exactly when `desired_index` is the unique index
attaining the maximum over registers `0..n_classes`; every tie for the
maximum is rejected with `None`, so tie-resolution happens inside
`argmax`, not in the caller.  (The bound `nClasses ≤ len` marks the
region where the source does not panic.) -/
theorem c4_argmax_unique_max (regs : Registers) (nClasses desiredIndex : Nat)
    (h1 : 1 ≤ nClasses) (h2 : nClasses ≤ regs.vals.length) :
    Registers.argmax regs nClasses desiredIndex = some desiredIndex ↔
      (desiredIndex < nClasses ∧ ∀ i, i < nClasses → i ≠ desiredIndex →
        regs.vals.getD i 0 < regs.vals.getD desiredIndex 0) := by
  obtain ⟨m, hm⟩ :
      ∃ m, listMax ((List.range nClasses).map fun i => regs.vals.getD i 0) = some m := by
    cases hv : (List.range nClasses).map fun i => regs.vals.getD i 0 with
    | nil =>
      have : nClasses = 0 := by
        have := congrArg List.length hv
        simpa using this
      omega
    | cons a as => exact ⟨as.foldl max a, rfl⟩
  have hmem := (listMax_spec _ m hm).1
  have hbound := (listMax_spec _ m hm).2
  simp only [Registers.argmax, hm]
  split_ifs with hcond
  · obtain ⟨hin, hlen1⟩ := hcond
    have hdes : desiredIndex ∈ List.range nClasses ∧ regs.vals.getD desiredIndex 0 = m := by
      have := List.mem_filter.mp hin
      simpa using this
    constructor
    · intro _
      refine ⟨List.mem_range.mp hdes.1, ?_⟩
      intro i hi hne
      have hle : regs.vals.getD i 0 ≤ m :=
        hbound _ (List.mem_map.mpr ⟨i, List.mem_range.mpr hi, rfl⟩)
      rcases lt_or_eq_of_le hle with hlt | heq
      · rw [hdes.2]; exact hlt
      · exfalso
        have hifil : i ∈ (List.range nClasses).filter
            (fun j => decide (regs.vals.getD j 0 = m)) :=
          List.mem_filter.mpr ⟨List.mem_range.mpr hi, decide_eq_true heq⟩
        obtain ⟨x, hx⟩ := List.length_eq_one.mp hlen1
        rw [hx] at hin hifil
        simp only [List.mem_singleton] at hin hifil
        exact hne (hifil.trans hin.symm)
    · intro _; rfl
  · constructor
    · intro h; simp at h
    · intro ⟨hdlt, hstrict⟩
      exfalso
      apply hcond
      have hmdes : m = regs.vals.getD desiredIndex 0 := by
        obtain ⟨j, hjr, hjv⟩ := List.mem_map.mp hmem
        have hjlt : j < nClasses := List.mem_range.mp hjr
        by_cases hje : j = desiredIndex
        · rw [← hjv, hje]
        · exfalso
          have hjlt2 : regs.vals.getD j 0 < regs.vals.getD desiredIndex 0 :=
            hstrict j hjlt hje
          have hdle : regs.vals.getD desiredIndex 0 ≤ m :=
            hbound _ (List.mem_map.mpr ⟨desiredIndex, List.mem_range.mpr hdlt, rfl⟩)
          rw [← hjv] at hdle
          exact absurd hdle (not_le.mpr hjlt2)
      have hdin : desiredIndex ∈ (List.range nClasses).filter
          (fun j => decide (regs.vals.getD j 0 = m)) :=
        List.mem_filter.mpr ⟨List.mem_range.mpr hdlt, decide_eq_true hmdes.symm⟩
      have hsingle : (List.range nClasses).filter
          (fun j => decide (regs.vals.getD j 0 = m)) = [desiredIndex] := by
        refine eq_singleton_of_mem_forall ((List.nodup_range nClasses).filter _) hdin ?_
        intro x hx
        have hx2 := List.mem_filter.mp hx
        have hxlt : x < nClasses := List.mem_range.mp hx2.1
        have hxv : regs.vals.getD x 0 = m := by simpa using hx2.2
        by_contra hxne
        have := hstrict x hxlt hxne
        rw [hxv, hmdes] at this
        exact lt_irrefl _ this
      exact ⟨hdin, by rw [hsingle]; rfl⟩

/-- C4 (witness): in the bank `[0, 5, 0]` with 3 class registers, index 1
is the unique maximum, and the characterisation applies. -/
theorem c4_argmax_witness :
    ((1 : Nat) ≤ 3 ∧ (3 : Nat) ≤ (Registers.mk [(0 : ℚ), 5, 0]).vals.length) ∧
      (Registers.argmax (Registers.mk [(0 : ℚ), 5, 0]) 3 1 = some 1 ↔
        (1 < 3 ∧ ∀ i, i < 3 → i ≠ 1 →
          (Registers.mk [(0 : ℚ), 5, 0]).vals.getD i 0 <
            (Registers.mk [(0 : ℚ), 5, 0]).vals.getD 1 0)) :=
  ⟨⟨by decide, by decide⟩,
    c4_argmax_unique_max (Registers.mk [(0 : ℚ), 5, 0]) 3 1 (by decide) (by decide)⟩

/-- C4 (counterexample): with the bank `[1, 1]` both class registers
attain the maximum, yet `argmax` returns `None` for each of them — the
tied indices are not returned to the caller; the tie is resolved (by
rejection) inside `argmax`. -/
theorem c4_tie_counterexample :
    Registers.argmax (Registers.mk [(1 : ℚ), 1]) 2 0 = none ∧
      Registers.argmax (Registers.mk [(1 : ℚ), 1]) 2 1 = none ∧
      (Registers.mk [(1 : ℚ), 1]).vals.getD 0 0 = (Registers.mk [(1 : ℚ), 1]).vals.getD 1 0 := by
  refine ⟨?_, ?_, rfl⟩ <;> rfl

/-- C7: for every environment, program and `n_runs ≥ 1`, the episodic
evaluator collects exactly one cumulative score per episode (`n_runs`
scores), returns the element at index `⌊n_runs / 2⌋` of the ascending
sort of those scores — a member of the score list — and records it as
the fitness of the program. -/
theorem c7_rl_median {S : Type} (exec : Registers → S → Registers) (env : RLEnvM S)
    (nActionRegisters : Nat) (pick : Nat → Nat) (maxEpisodeLength nRuns : Nat)
    (p : ProgramRL) (s0 : S) (h : 1 ≤ nRuns) :
    (rlScoresOf exec env nActionRegisters pick maxEpisodeLength nRuns p s0).length = nRuns ∧
    (evalFitnessRL exec env nActionRegisters nRuns maxEpisodeLength pick p s0).1 =
      ((rlScoresOf exec env nActionRegisters pick maxEpisodeLength nRuns p s0).insertionSort
        (· ≤ ·)).getD (nRuns / 2) 0 ∧
    (evalFitnessRL exec env nActionRegisters nRuns maxEpisodeLength pick p s0).1 ∈
      rlScoresOf exec env nActionRegisters pick maxEpisodeLength nRuns p s0 ∧
    (evalFitnessRL exec env nActionRegisters nRuns maxEpisodeLength pick p s0).2.1.fitness =
      some (evalFitnessRL exec env nActionRegisters nRuns maxEpisodeLength pick p s0).1 := by
  have hlen : (rlScoresOf exec env nActionRegisters pick maxEpisodeLength nRuns p s0).length
      = nRuns := episodeScores_length exec env nActionRegisters pick maxEpisodeLength
        nRuns p.registers (env.init s0)
  rcases hre : runEpisodes exec env nActionRegisters pick maxEpisodeLength nRuns
      p.registers (env.init s0) [] with ⟨regs2, sEnd, scores⟩
  have hscores : scores = rlScoresOf exec env nActionRegisters pick maxEpisodeLength nRuns p s0 := by
    have := runEpisodes_scores exec env nActionRegisters pick maxEpisodeLength nRuns
      p.registers (env.init s0) []
    rw [hre] at this
    simpa [rlScoresOf] using this
  have hev : evalFitnessRL exec env nActionRegisters nRuns maxEpisodeLength pick p s0 =
      (((rlScoresOf exec env nActionRegisters pick maxEpisodeLength nRuns p s0).insertionSort
          (· ≤ ·)).getD (nRuns / 2) 0,
        { registers := regs2,
          fitness := some (((rlScoresOf exec env nActionRegisters pick maxEpisodeLength nRuns
            p s0).insertionSort (· ≤ ·)).getD (nRuns / 2) 0) },
        env.finish sEnd) := by
    simp only [evalFitnessRL, hre, hscores]
  refine ⟨hlen, by rw [hev], ?_, by rw [hev]⟩
  rw [hev]
  have hperm := List.perm_insertionSort (α := ℚ) (· ≤ ·)
    (rlScoresOf exec env nActionRegisters pick maxEpisodeLength nRuns p s0)
  have hslen : ((rlScoresOf exec env nActionRegisters pick maxEpisodeLength nRuns
      p s0).insertionSort (· ≤ ·)).length = nRuns := by
    rw [hperm.length_eq, hlen]
  have hidx : nRuns / 2 < ((rlScoresOf exec env nActionRegisters pick maxEpisodeLength nRuns
      p s0).insertionSort (· ≤ ·)).length := by
    rw [hslen]
    omega
  have hget : (((rlScoresOf exec env nActionRegisters pick maxEpisodeLength nRuns
      p s0).insertionSort (· ≤ ·)).getD (nRuns / 2) 0) ∈
      ((rlScoresOf exec env nActionRegisters pick maxEpisodeLength nRuns
        p s0).insertionSort (· ≤ ·)) := by
    rw [List.getD_eq_getElem _ _ hidx]
    exact List.getElem_mem hidx
  exact hperm.mem_iff.mp hget

/-- C7 (witness): the scripted five-run environment produces the
per-episode scores `1, 2, 3, 4, 5`; the evaluator returns the element at
index `5 / 2 = 2` of the sorted scores, which is the median `3`. -/
theorem c7_rl_median_witness :
    ((1 : Nat) ≤ 5) ∧
      ((rlScoresOf (fun r _ => r) s6Env 1 (fun _ => 0) 1 5 s6Program 0).length = 5 ∧
        (evalFitnessRL (fun r _ => r) s6Env 1 5 1 (fun _ => 0) s6Program 0).1 =
          ((rlScoresOf (fun r _ => r) s6Env 1 (fun _ => 0) 1 5 s6Program 0).insertionSort
            (· ≤ ·)).getD (5 / 2) 0 ∧
        (evalFitnessRL (fun r _ => r) s6Env 1 5 1 (fun _ => 0) s6Program 0).1 ∈
          rlScoresOf (fun r _ => r) s6Env 1 (fun _ => 0) 1 5 s6Program 0 ∧
        (evalFitnessRL (fun r _ => r) s6Env 1 5 1 (fun _ => 0) s6Program 0).2.1.fitness =
          some (evalFitnessRL (fun r _ => r) s6Env 1 5 1 (fun _ => 0) s6Program 0).1) ∧
      rlScoresOf (fun r _ => r) s6Env 1 (fun _ => 0) 1 5 s6Program 0 = [1, 2, 3, 4, 5] ∧
      (evalFitnessRL (fun r _ => r) s6Env 1 5 1 (fun _ => 0) s6Program 0).1 = 3 :=
  ⟨by decide,
    c7_rl_median (fun r _ => r) s6Env 1 (fun _ => 0) 1 5 s6Program 0 (by decide),
    by norm_num [rlScoresOf, episodeScores, runSteps, s6Env, s6Program, rlArgmax, listMax,
      RewardM.get_value, RewardM.is_terminal],
    by norm_num [evalFitnessRL, runEpisodes, runSteps, s6Env, s6Program, rlArgmax, listMax,
      RewardM.get_value, RewardM.is_terminal, List.insertionSort, List.orderedInsert]⟩

/-- C10: with the concrete step `addOneReg` (adding 1 to every register)
and an environment that never terminates an episode, the RL evaluator
leaves the program with registers `addOneReg` iterated
`n_runs · max_episode_length` times from its initial bank: the bank is
threaded across every step and every episode boundary with no reset, and
the evaluation mutates the registers owned by the program.  (Per-episode
resetting would cap the iteration count at `max_episode_length`.)  The
classification evaluator instead returns the program untouched — its
receiver is `&self` — and its accuracy is that of classifying every
record independently from the register bank of the program, i.e. each
record runs on a fresh clone. -/
theorem c10_register_frame :
    (∀ (nActionRegisters nRuns maxEpisodeLength : Nat) (pick : Nat → Nat) (p : ProgramRL),
      (evalFitnessRL (fun r _ => addOneReg r) driftEnv nActionRegisters nRuns
          maxEpisodeLength pick p ()).2.1.registers =
        addOneReg^[nRuns * maxEpisodeLength] p.registers) ∧
    (∀ (Inp : Type) (applyInstr : InstructionM → Registers → Inp → Registers)
      (nClasses : Nat) (getClass : Inp → Nat) (p : ProgramC) (inputs : List Inp),
      (evalFitnessClassif applyInstr nClasses getClass p inputs).2 = p) ∧
    (∀ (Inp : Type) (applyInstr : InstructionM → Registers → Inp → Registers)
      (nClasses : Nat) (getClass : Inp → Nat) (p : ProgramC) (inputs : List Inp),
      (evalFitnessClassif applyInstr nClasses getClass p inputs).1 =
        Accuracy.calculate
          ⟨(inputs.filter (fun input =>
              classifyRecord applyInstr nClasses p.instructions p.registers input =
                some (getClass input))).length,
            inputs.length⟩) := by
  refine ⟨?_, ?_, ?_⟩
  · intro nActionRegisters nRuns maxEpisodeLength pick p
    rcases hre : runEpisodes (fun r _ => addOneReg r) driftEnv nActionRegisters pick
        maxEpisodeLength nRuns p.registers (driftEnv.init ()) [] with ⟨regs2, sEnd, scores⟩
    have hregs : regs2 = addOneReg^[nRuns * maxEpisodeLength] p.registers := by
      have := runEpisodes_drift nActionRegisters pick maxEpisodeLength nRuns
        p.registers (driftEnv.init ()) []
      rw [hre] at this
      exact this
    simp only [evalFitnessRL, hre, hregs]
  · intro Inp applyInstr nClasses getClass p inputs
    rfl
  · intro Inp applyInstr nClasses getClass p inputs
    have := foldl_observe_count
      (fun input => (classifyRecord applyInstr nClasses p.instructions p.registers input =
        some (getClass input) : Bool)) inputs (Accuracy.new 0 0)
    simp only [evalFitnessClassif]
    rw [this]
    simp [Accuracy.new]

/-- C2 (witness): capacity 4, two survivors,
`n_mutations = n_crossovers = 1/2`: one crossover child and one mutation
child are produced and the population refills exactly to capacity. -/
theorem c2_breed_refill_witness :
    ([(0 : ℚ), 1].length ≤ 4 ∧ 2 ≤ [(0 : ℚ), 1].length ∧ (0 : ℚ) ≤ 1 / 2 ∧
        (0 : ℚ) ≤ 1 / 2 ∧ (1 / 2 : ℚ) + 1 / 2 ≤ 1) ∧
      (∃ l, breed (fun (a : ℚ) _ => a) (fun a _ => a) 4 (1 / 2) (1 / 2) [0, 1] = some l ∧
        l.length = min 4 (2 * ([(0 : ℚ), 1].length +
          (⌊(1 / 2 : ℚ) * ((4 - [(0 : ℚ), 1].length : Nat) : ℚ)⌋).toNat +
          (⌊(1 / 2 : ℚ) * ((4 - [(0 : ℚ), 1].length : Nat) : ℚ)⌋).toNat)) ∧
        (4 ≤ 2 * [(0 : ℚ), 1].length → l.length = 4)) :=
  ⟨⟨by decide, by decide, by norm_num, by norm_num, by norm_num⟩,
    c2_breed_refill (fun (a : ℚ) _ => a) (fun a _ => a) [0, 1] 4 (1 / 2) (1 / 2)
      (by decide) (by decide) (by norm_num) (by norm_num) (by norm_num)⟩

/-- C5 (witness): `max_instructions = 2` with the RNG supplying 1 gives
one generated instruction, below the exclusive bound, with cleared
fitness; every count in `[0, 2)` is attainable. -/
theorem c5_uniform_range_witness :
    ((0 : Nat) < 2) ∧
      ((ProgramG.generate 3 4 2 (fun _ => 1)).instructions.length = sampleUniformInt 0 2 1 ∧
        sampleUniformInt 0 2 1 < 2 ∧
        (∀ k, k < 2 → ∃ r : Nat → Nat,
          (ProgramG.generate 3 4 2 r).instructions.length = k) ∧
        (ProgramG.generate 3 4 2 (fun _ => 1)).fitness = none) :=
  ⟨by decide, c5_uniform_range 3 4 2 (fun _ => 1) (by decide)⟩

/-- C9 (witness): two survivors with one crossover and one mutation to
do terminate at length 4; a single survivor with one crossover to do
fails the two-parent sample and the loop diverges (fuel 5 shown). -/
theorem c9_breed_loop_termination_witness :
    ((2 : Nat) ≤ [(0 : ℚ), 1].length ∧ [(0 : ℚ)].length < 2 ∧ (0 : Nat) < 1 + 0) ∧
      (∃ l, breedLoop (fun (a : ℚ) _ => a) (fun a _ => a) (1 + 1) [0, 1] 1 1 = some l ∧
        l.length = [(0 : ℚ), 1].length + 1 + 1) ∧
      chooseTwo [(0 : ℚ)] = none ∧
      breedLoop (fun (a : ℚ) _ => a) (fun a _ => a) 5 [0] 1 0 = none :=
  ⟨⟨by decide, by decide, by decide⟩,
    (c9_breed_loop_termination (fun (a : ℚ) _ => a) (fun a _ => a) [0, 1] 1 1).1 (by decide),
    ((c9_breed_loop_termination (fun (a : ℚ) _ => a) (fun a _ => a) [0] 1 0).2
      (by decide) (by decide)).1,
    ((c9_breed_loop_termination (fun (a : ℚ) _ => a) (fun a _ => a) [0] 1 0).2
      (by decide) (by decide)).2 5⟩

end LGP
